import Mathlib

/-!
Verification of the suite discovery and execution-ordering engine of the
twisp test-runner (package `runner`, file `discovery.go`).

Embedding conventions:

* Go relative-path strings are modelled as lists of path segments
  (`RelPath := List String`): the Go string `"a/b"` is `["a", "b"]` and the
  empty path `""` (the suite root) is `[]`.  All path manipulation in the
  source (`strings.Split`/`strings.Join` on `filepath.Separator`,
  `filepath.Dir`, `filepath.Base`) becomes list manipulation under this
  correspondence; segments produced by a real directory walk are nonempty
  and contain no separator, so the correspondence is a bijection on the
  reachable inputs.
* Go string comparison (`<` on strings, `sort.Strings`) is byte-wise
  lexicographic; since UTF-8 is order-preserving on code points this equals
  lexicographic comparison of the character lists, modelled by `charListLt`.
* `filepath.Walk` is external I/O; `DiscoverTests` is modelled as a function
  of the sequence of walk entries (relative path, is-directory flag) that
  the walk emits, in emission order (lexical order, directories before
  their contents).  The absolute root path appears as its segment list.
* Go maps (`Suites`, `Suite.Tests`, the `visited` set) are modelled as
  association lists; reads are first-match lookups and writes replace in
  place.  Go map iteration order is unspecified, which for `Suite.Tests`
  is captured by quantifying over permutations of the association list.
* `Suite.Children` (child name to child-suite pointer) is populated in
  lock-step with `Suite.Tests` (child name to child-suite path) and is read
  by no ordering or selection code, so it is not modelled separately.
* `Test.AbsDir` is an absolute-path rendering of `Test.Dir` used only for
  display; it is not modelled.
* `strconv.Atoi` is modelled without its bit-width overflow failure
  (sequence tokens of real fixtures are far below 2^63).
* `sort.Slice` is an unstable sort specified only up to choice among
  sorted permutations; it is modelled by insertion sort on the collected
  list, whose order already reflects one map-iteration order.
-/

namespace TestRunner

/-- A relative path, as the list of its segments.  `[]` is the suite root. -/
abbrev RelPath := List String

/-! ## Go string primitives, modelled on character lists -/

/-- Byte-wise lexicographic `<` on character lists, as Go compares strings. -/
def charListLt : List Char → List Char → Bool
  | [], [] => false
  | [], _ :: _ => true
  | _ :: _, [] => false
  | a :: as, b :: bs => if a < b then true else if b < a then false else charListLt as bs

/-- Go `s1 < s2` on strings. -/
def strLt (s t : String) : Bool := charListLt s.data t.data

/-- Go `s1 <= s2` on strings (used to specify `sort.Strings`). -/
def strLe (s t : String) : Bool := !(strLt t s)

/-- Whether the list `p` is an initial run of the list `l`. -/
def charsStart : List Char → List Char → Bool
  | _, [] => true
  | [], _ :: _ => false
  | a :: as, b :: bs => a = b && charsStart as bs

/-- Go `strings.HasPrefix s p` (also the meaning of a `"/SKIP"` substring
test on an absolute path, restricted to one segment). -/
def strStarts (s p : String) : Bool := charsStart s.data p.data

/-- Digit run to number: Go `strconv.Atoi` on an unsigned digit string. -/
def digitsVal : List Char → Option Nat
  | [] => none
  | [c] => if c.isDigit then some (c.toNat - '0'.toNat) else none
  | c :: c' :: t =>
    if c.isDigit then
      match digitsVal (c' :: t) with
      | some n => some ((c.toNat - '0'.toNat) * 10 ^ (c' :: t).length + n)
      | none => none
    else none

/-- Go `strconv.Atoi`: optional sign, then a nonempty digit run. -/
def atoi : List Char → Option Int
  | [] => none
  | '-' :: t => (digitsVal t).map (fun n => -(n : Int))
  | '+' :: t => (digitsVal t).map (fun n => (n : Int))
  | l => (digitsVal l).map (fun n => (n : Int))

/-- Position of the first occurrence of `c`: Go `strings.SplitN s c 2`
returns more than one part exactly when this is `some`, and the first part
is the prefix it returns. -/
def splitFirst (c : Char) : List Char → Option (List Char × List Char)
  | [] => none
  | x :: xs =>
    if x = c then some ([], xs)
    else (splitFirst c xs).map (fun r => (x :: r.1, r.2))

/-- Go `strings.Join segs "/"`, as the joined character list. -/
def pathChars : RelPath → List Char
  | [] => []
  | [x] => x.data
  | x :: y :: t => x.data ++ '/' :: pathChars (y :: t)

/-- Go `strings.Join segs "/"`. -/
def pathString (p : RelPath) : String := String.mk (pathChars p)

/-! ## Association-list maps (model of Go maps) -/

/-- First-match lookup in an association list (Go map read). -/
def assocFind {α β : Type} [DecidableEq α] : List (α × β) → α → Option β
  | [], _ => none
  | (k, v) :: t, a => if k = a then some v else assocFind t a

/-- In-place update or append (Go map write). -/
def assocPut {α β : Type} [DecidableEq α] : List (α × β) → α → β → List (α × β)
  | [], a, b => [(a, b)]
  | (k, v) :: t, a, b => if k = a then (a, b) :: t else (k, v) :: assocPut t a b

/-! ## Data model (`discovery.go`) -/

/-- `Test`: a single test case and its fixture files.  The four file-path
fields hold the full path of the fixture file, `[]` when unset (Go `""`). -/
structure Test where
  Name : String
  Dir : RelPath
  Seq : Int
  Request : RelPath := []
  Response : RelPath := []
  Variables : RelPath := []
  Transform : RelPath := []
deriving DecidableEq, Repr

/-- `IsValid`: the test has both request and response files. -/
def Test.IsValid (t : Test) : Bool :=
  decide (t.Request ≠ []) && decide (t.Response ≠ [])

/-- `Suite`: a directory node.  `Tests` maps child test name to child suite
path; `refs` is the reference count. -/
structure Suite where
  Path : RelPath
  Base : Option Test := none
  Tests : List (String × RelPath) := []
  refs : Nat := 0
deriving DecidableEq, Repr

/-- `Suites`: the forest, a map from relative path to suite node. -/
abbrev Suites := List (RelPath × Suite)

/-- Forest lookup, `s[path]`. -/
def lookupSuite (s : Suites) (p : RelPath) : Option Suite := assocFind s p

/-- `getParentPath`: drop the last path segment; one-segment paths and the
root map to the root. -/
def getParentPath (path : RelPath) : RelPath :=
  if path = [] then []
  else if path.length ≤ 1 then []
  else path.dropLast

/-! ## `parseTestFile` -/

/-- `parseTestFile basePath rel isDir` classifies the file at absolute path
`basePath ++ rel` (`rel` the path relative to the walk root).  Mirrors the
source: directories and paths containing a `/SKIP` segment are rejected,
the directory name is split on the first underscore for the sequence
token, and the file base name selects which fixture field is set. -/
def parseTestFile (basePath rel : List String) (isDir : Bool) : Option Test :=
  if isDir then none
  else if (basePath ++ rel).any (fun seg => strStarts seg "SKIP") then none
  else
    match rel.getLast? with
    | none => none
    | some fileName =>
      let dirPath := rel.dropLast
      let dirParts := if dirPath = [] then [""] else dirPath
      let testName0 := dirParts.getLast?.getD ""
      let testName :=
        if testName0 = "" ∧ 1 < dirParts.length then
          dirParts.dropLast.getLast?.getD ""
        else testName0
      let seq : Int :=
        match splitFirst '_' testName.data with
        | some r =>
          match atoi r.1 with
          | some n => n
          | none => -1
        | none => -1
      let t0 : Test := { Name := testName, Dir := dirPath, Seq := seq }
      if fileName = "request.gql" then some { t0 with Request := basePath ++ rel }
      else if fileName = "response.json" then some { t0 with Response := basePath ++ rel }
      else if fileName = "variables.json" then some { t0 with Variables := basePath ++ rel }
      else if fileName = "transform.jq" then some { t0 with Transform := basePath ++ rel }
      else none

/-- `mergeTest`: keep non-empty fields of `src`, otherwise keep `dst`. -/
def mergeTest (dst src : Test) : Test :=
  { dst with
    Request := if src.Request ≠ [] then src.Request else dst.Request
    Response := if src.Response ≠ [] then src.Response else dst.Response
    Variables := if src.Variables ≠ [] then src.Variables else dst.Variables
    Transform := if src.Transform ≠ [] then src.Transform else dst.Transform }

/-! ## `DiscoverTests` -/

/-- One step of the walk callback body in `DiscoverTests`: a directory
creates a fresh node; a recognized file is merged into its directory's
base case and registered with the parent. -/
def walkStep (basePath : List String) (s : Suites) (rel : RelPath) (isDir : Bool) :
    Except String Suites :=
  if isDir then
    .ok (assocPut s rel { Path := rel })
  else
    match parseTestFile basePath rel isDir with
    | none => .ok s
    | some test =>
      match lookupSuite s test.Dir with
      | none => .error "suite not found"
      | some suite =>
        let isNew := suite.Base.isNone
        let newBase :=
          match suite.Base with
          | none => test
          | some b => mergeTest b test
        let suite1 : Suite := { suite with Base := some newBase }
        if suite1.Path ≠ [] then
          match lookupSuite s (getParentPath suite1.Path) with
          | none => .error "expected parent path"
          | some parent =>
            let parent1 := if isNew then { parent with refs := parent.refs + 1 } else parent
            let pair :=
              if 0 ≤ newBase.Seq then
                ({ parent1 with Tests := assocPut parent1.Tests test.Name suite1.Path },
                 if isNew then { suite1 with refs := suite1.refs + 1 } else suite1)
              else (parent1, suite1)
            .ok (assocPut (assocPut s (getParentPath suite1.Path) pair.1) test.Dir pair.2)
        else
          .ok (assocPut s test.Dir suite1)

/-- Fold the walk callback over the emitted entries, aborting on error. -/
def foldWalk (basePath : List String) : List (RelPath × Bool) → Suites → Except String Suites
  | [], s => .ok s
  | (rel, isDir) :: rest, s =>
    match walkStep basePath s rel isDir with
    | .error e => .error e
    | .ok s1 => foldWalk basePath rest s1

/-- The prune pass after the walk: drop nodes with no base and no children. -/
def pruneSuites (s : Suites) : Suites :=
  s.filter (fun kv => !(kv.2.Base.isNone && decide (kv.2.Tests = [])))

/-- `DiscoverTests`, as a function of the walk-entry sequence (see header
note): fold the walk callback from an empty forest, then prune. -/
def DiscoverTests (basePath : List String) (walk : List (RelPath × Bool)) :
    Except String Suites :=
  match foldWalk basePath walk [] with
  | .error e => .error e
  | .ok s => .ok (pruneSuites s)

/-! ## Ordering engine -/

/-- The `sort.Slice` comparator over collected child tests: sequenced before
unsequenced, sequenced by token, unsequenced by name. -/
def childLess (a b : Test) : Bool :=
  if 0 ≤ a.Seq ∧ 0 ≤ b.Seq then decide (a.Seq < b.Seq)
  else if 0 ≤ a.Seq then true
  else if 0 ≤ b.Seq then false
  else strLt a.Name b.Name

/-- The non-strict order in which `sort.Slice` leaves the slice sorted. -/
def childLE (a b : Test) : Prop := childLess b a = false

instance : DecidableRel childLE := fun x y => inferInstanceAs (Decidable (childLess y x = false))

/-- One iteration of the child-collection loop of `runWithVisited`: look the
child suite up, skip it when absent, baseless, or invalid, apply the
`maxSeq` cut, and otherwise keep its base case. -/
def collectOne (s : Suites) (maxSeq : Int) (kv : String × RelPath) : Option Test :=
  match lookupSuite s kv.2 with
  | none => none
  | some child =>
    match child.Base with
    | none => none
    | some b =>
      if b.IsValid = false then none
      else if 0 ≤ maxSeq ∧ 0 ≤ b.Seq ∧ maxSeq < b.Seq then none
      else some b

/-- The child-collection loop of `runWithVisited`: walk `suite.Tests` in map
order, keeping the contributing children's base cases. -/
def collectChildTests (s : Suites) (suite : Suite) (maxSeq : Int) : List Test :=
  suite.Tests.filterMap (collectOne s maxSeq)

/-- The body of `runWithVisited`, abstracted over the recursive call: check
the visited set, look the suite up, expand the non-root parent, mark
visited, emit the valid base, then the sorted children. -/
def runBody (s : Suites)
    (rec : RelPath → Int → List RelPath → List Test × List RelPath)
    (suitePath : RelPath) (maxSeq : Int) (visited : List RelPath) :
    List Test × List RelPath :=
  if suitePath ∈ visited then ([], visited)
  else
    match lookupSuite s suitePath with
    | none => ([], visited)
    | some suite =>
      let pr :=
        if getParentPath suitePath ≠ [] then rec (getParentPath suitePath) (-1) visited
        else ([], visited)
      let baseOut : List Test :=
        match suite.Base with
        | some b => if b.IsValid then [b] else []
        | none => []
      let children := List.insertionSort childLE (collectChildTests s suite maxSeq)
      (pr.1 ++ baseOut ++ children, suitePath :: pr.2)

/-- Fuelled form of `runWithVisited`; the parent recursion strictly shortens
the path, so fuel `length + 1` always suffices (`runWithVisited_eq`). -/
def runWithVisitedF (s : Suites) : Nat → RelPath → Int → List RelPath →
    List Test × List RelPath
  | 0, _, _, visited => ([], visited)
  | n + 1, p, m, v => runBody s (runWithVisitedF s n) p m v

/-- `runWithVisited`: emitted tests in order, with the final visited set. -/
def runWithVisited (s : Suites) (p : RelPath) (m : Int) (v : List RelPath) :
    List Test × List RelPath :=
  runWithVisitedF s (p.length + 1) p m v

/-- `run`: start a traversal with an empty visited set. -/
def run (s : Suites) (suitePath : RelPath) (maxSeq : Int) : List Test :=
  (runWithVisited s suitePath maxSeq []).1

/-- `GetOrderedTests`: all tests of the suite in execution order. -/
def GetOrderedTests (s : Suites) (suitePath : RelPath) : List Test :=
  run s suitePath (-1)

/-! ## `RunnableSuitePaths` -/

/-- The order in which `sort.Strings` leaves its argument. -/
def strLeR (a b : String) : Prop := strLe a b = true

instance : DecidableRel strLeR := fun x y => inferInstanceAs (Decidable (strLe x y = true))

/-- `RunnableSuitePaths`: paths to execute directly, skipping suites with a
positive reference count and no child tests, sorted as Go path strings. -/
def RunnableSuitePaths (s : Suites) : List String :=
  List.insertionSort strLeR
    ((s.filter (fun kv => !(decide (0 < kv.2.refs) && decide (kv.2.Tests = [])))).map
      (fun kv => pathString kv.1))

/-! ## Discovery invariants, map-order equivalence, and concrete examples -/

/-- Example: valid base case of the root suite. -/
def exRootBase : Test :=
  { Name := "", Dir := [], Seq := -1,
    Request := ["h", "request.gql"], Response := ["h", "response.json"] }

/-- Example: valid base case of the sequenced child directory `001_A`. -/
def exBaseA : Test :=
  { Name := "001_A", Dir := ["001_A"], Seq := 1,
    Request := ["h", "001_A", "request.gql"],
    Response := ["h", "001_A", "response.json"] }

/-- Example: valid base case of the nested sequenced directory
`001_A/002_B`. -/
def exBaseB : Test :=
  { Name := "002_B", Dir := ["001_A", "002_B"], Seq := 2,
    Request := ["h", "001_A", "002_B", "request.gql"],
    Response := ["h", "001_A", "002_B", "response.json"] }

/-- Example: the root node of `exForest`. -/
def exNodeRoot : Suite :=
  { Path := [], Base := some exRootBase, Tests := [("001_A", ["001_A"])], refs := 1 }

/-- Example: the node of `001_A` in `exForest`. -/
def exNodeA : Suite :=
  { Path := ["001_A"], Base := some exBaseA,
    Tests := [("002_B", ["001_A", "002_B"])], refs := 2 }

/-- Example: the node of `001_A/002_B` in `exForest`. -/
def exNodeB : Suite :=
  { Path := ["001_A", "002_B"], Base := some exBaseB, refs := 1 }

/-- Example forest: a root suite with valid base, one sequenced child
`001_A` (registered in the root's child map) and a nested sequenced child
`001_A/002_B`. -/
def exForest : Suites :=
  [([], exNodeRoot), (["001_A"], exNodeA), (["001_A", "002_B"], exNodeB)]

/-- Discovery state invariant: every stored node records its own key as its
path. -/
def pathCons (s : Suites) : Prop := ∀ p u, lookupSuite s p = some u → u.Path = p

/-- Discovery state invariant: a node whose full path contains a
SKIP-prefixed segment has accumulated no base case and no children. -/
def skipInv (basePath : List String) (s : Suites) : Prop :=
  ∀ p u, lookupSuite s p = some u →
    (∃ seg ∈ basePath ++ p, strStarts seg "SKIP" = true) →
    u.Base = none ∧ u.Tests = []

/-- Walk entries of a tree holding a root fixture pair, a child `A` with a
fixture pair, and a `SKIP_x` child with a fixture pair. -/
def c5walk : List (RelPath × Bool) :=
  [([], true),
   (["A"], true),
   (["A", "request.gql"], false),
   (["A", "response.json"], false),
   (["SKIP_x"], true),
   (["SKIP_x", "request.gql"], false),
   (["SKIP_x", "response.json"], false),
   (["request.gql"], false),
   (["response.json"], false)]

/-- The root base case discovered from `c5walk`. -/
def c5rootBase : Test :=
  { Name := "", Dir := [], Seq := -1,
    Request := ["h", "request.gql"], Response := ["h", "response.json"] }

/-- The base case of child `A` discovered from `c5walk`. -/
def c5baseA : Test :=
  { Name := "A", Dir := ["A"], Seq := -1,
    Request := ["h", "A", "request.gql"], Response := ["h", "A", "response.json"] }

/-- The suite stored at `["A"]` in `c5forest`. -/
def c5nodeA : Suite := { Path := ["A"], Base := some c5baseA }

/-- The forest `DiscoverTests` produces from `c5walk`: no `SKIP_x` node;
the root holds one reference from its child `A`. -/
def c5forest : Suites :=
  [([], { Path := [], Base := some c5rootBase, refs := 1 }), (["A"], c5nodeA)]

/-- Fragment with a first request path, as from one recognized file. -/
def c8a : Test := { Name := "x", Dir := ["d"], Seq := -1, Request := ["h", "d", "r1"] }

/-- Fragment with a different request path in the same slot. -/
def c8b : Test := { Name := "x", Dir := ["d"], Seq := -1, Request := ["h", "d", "r2"] }

/-- A well-formed path segment: nonempty and free of the separator. -/
def goodSeg (seg : String) : Prop := seg ≠ "" ∧ '/' ∉ seg.data

instance : DecidablePred goodSeg :=
  fun seg => inferInstanceAs (Decidable (seg ≠ "" ∧ '/' ∉ seg.data))

/-- Two suite records that differ only in the enumeration order of the
child map, as two iterations of one Go map may. -/
def SuiteEquiv (u v : Suite) : Prop :=
  u.Path = v.Path ∧ u.Base = v.Base ∧ u.refs = v.refs ∧ List.Perm u.Tests v.Tests

/-- Two forests holding the same Go map contents, with each suite's child
map possibly enumerated in a different order. -/
def ForestEquiv (s s' : Suites) : Prop :=
  ∀ p, (lookupSuite s p = none ∧ lookupSuite s' p = none) ∨
    (∃ u v, lookupSuite s p = some u ∧ lookupSuite s' p = some v ∧ SuiteEquiv u v)

/-- No two distinct collected children of any suite tie under the child
comparator; in particular no two sequenced siblings share a token. -/
def NoTies (s : Suites) : Prop :=
  ∀ p u, lookupSuite s p = some u →
    (collectChildTests s u (-1)).Pairwise
      (fun a b => a ≠ b → childLess a b = true ∨ childLess b a = true)

/-- Test with sequence token 1 in directory `001_A`. -/
def c4tieA : Test :=
  { Name := "001_A", Dir := ["001_A"], Seq := 1,
    Request := ["h", "001_A", "request.gql"], Response := ["h", "001_A", "response.json"] }

/-- Test with the SAME sequence token 1 in sibling directory `001_B`. -/
def c4tieB : Test :=
  { Name := "001_B", Dir := ["001_B"], Seq := 1,
    Request := ["h", "001_B", "request.gql"], Response := ["h", "001_B", "response.json"] }

/-- Child node of `001_A` for the tie counterexample. -/
def c4tieChildA : Suite := { Path := ["001_A"], Base := some c4tieA, refs := 2 }

/-- Child node of `001_B` for the tie counterexample. -/
def c4tieChildB : Suite := { Path := ["001_B"], Base := some c4tieB, refs := 2 }

/-- Root with the tied children enumerated A then B. -/
def c4tieRootF : Suite :=
  { Path := [], Tests := [("001_A", ["001_A"]), ("001_B", ["001_B"])] }

/-- Root with the tied children enumerated B then A. -/
def c4tieRootR : Suite :=
  { Path := [], Tests := [("001_B", ["001_B"]), ("001_A", ["001_A"])] }

/-- Tie forest, first enumeration order. -/
def c4tieForestF : Suites :=
  [([], c4tieRootF), (["001_A"], c4tieChildA), (["001_B"], c4tieChildB)]

/-- Tie forest, second enumeration order. -/
def c4tieForestR : Suites :=
  [([], c4tieRootR), (["001_A"], c4tieChildA), (["001_B"], c4tieChildB)]

/-- Test with token 1 for the no-tie witness. -/
def c4wA : Test :=
  { Name := "001_A", Dir := ["001_A"], Seq := 1,
    Request := ["h", "001_A", "request.gql"], Response := ["h", "001_A", "response.json"] }

/-- Test with distinct token 2 for the no-tie witness. -/
def c4wB : Test :=
  { Name := "002_B", Dir := ["002_B"], Seq := 2,
    Request := ["h", "002_B", "request.gql"], Response := ["h", "002_B", "response.json"] }

/-- Child node of `001_A` for the no-tie witness. -/
def c4wChildA : Suite := { Path := ["001_A"], Base := some c4wA, refs := 2 }

/-- Child node of `002_B` for the no-tie witness. -/
def c4wChildB : Suite := { Path := ["002_B"], Base := some c4wB, refs := 2 }

/-- Root with distinct-token children enumerated A then B. -/
def c4wRootF : Suite :=
  { Path := [], Tests := [("001_A", ["001_A"]), ("002_B", ["002_B"])] }

/-- Root with distinct-token children enumerated B then A. -/
def c4wRootR : Suite :=
  { Path := [], Tests := [("002_B", ["002_B"]), ("001_A", ["001_A"])] }

/-- No-tie forest, first enumeration order. -/
def c4wForestF : Suites :=
  [([], c4wRootF), (["001_A"], c4wChildA), (["002_B"], c4wChildB)]

/-- No-tie forest, second enumeration order. -/
def c4wForestR : Suites :=
  [([], c4wRootR), (["001_A"], c4wChildA), (["002_B"], c4wChildB)]

/-! ## Helper lemmas: association lists -/

theorem assocFind_put_self {α β : Type} [DecidableEq α] (s : List (α × β)) (k : α) (v : β) :
    assocFind (assocPut s k v) k = some v := by
  induction s with
  | nil => simp [assocPut, assocFind]
  | cons kv t ih =>
    obtain ⟨k', v'⟩ := kv
    by_cases h : k' = k
    · simp [assocPut, h, assocFind]
    · simp [assocPut, h, assocFind, ih]

theorem assocFind_put_ne {α β : Type} [DecidableEq α] (s : List (α × β)) (k : α) (v : β)
    (k' : α) (h : k' ≠ k) : assocFind (assocPut s k v) k' = assocFind s k' := by
  have hk : k ≠ k' := fun hh => h hh.symm
  induction s with
  | nil =>
    simp only [assocPut, assocFind]
    rw [if_neg hk]
  | cons kv t ih =>
    obtain ⟨k₀, v₀⟩ := kv
    by_cases h0 : k₀ = k
    · subst h0
      simp only [assocPut, if_pos rfl, assocFind]
      rw [if_neg hk, if_neg hk]
    · simp only [assocPut, if_neg h0, assocFind]
      by_cases h1 : k₀ = k'
      · rw [if_pos h1, if_pos h1]
      · rw [if_neg h1, if_neg h1]
        exact ih

theorem assocFind_mem {α β : Type} [DecidableEq α] (s : List (α × β)) (k : α) (v : β)
    (h : assocFind s k = some v) : (k, v) ∈ s := by
  induction s with
  | nil => simp [assocFind] at h
  | cons kv t ih =>
    obtain ⟨k₀, v₀⟩ := kv
    by_cases h0 : k₀ = k
    · subst h0
      simp [assocFind] at h
      simp [h]
    · simp only [assocFind, if_neg h0] at h
      exact List.mem_cons_of_mem _ (ih h)

theorem assocPut_keys_sub {α β : Type} [DecidableEq α] (s : List (α × β)) (k : α) (v : β)
    (k' : α) (h : k' ∈ (assocPut s k v).map Prod.fst) : k' ∈ s.map Prod.fst ∨ k' = k := by
  induction s with
  | nil => simp [assocPut] at h; simp [h]
  | cons kv t ih =>
    obtain ⟨k₀, v₀⟩ := kv
    by_cases h0 : k₀ = k
    · subst h0
      simp [assocPut] at h
      rcases h with h | h
      · right; exact h
      · left; simp [h]
    · simp only [assocPut, if_neg h0, List.map_cons, List.mem_cons] at h
      rcases h with h | h
      · left; simp [h]
      · rcases ih h with h' | h'
        · left; simp [h']
        · right; exact h'

theorem assocPut_nodup_keys {α β : Type} [DecidableEq α] (s : List (α × β)) (k : α) (v : β)
    (h : (s.map Prod.fst).Nodup) : ((assocPut s k v).map Prod.fst).Nodup := by
  induction s with
  | nil => simp [assocPut]
  | cons kv t ih =>
    obtain ⟨k₀, v₀⟩ := kv
    simp only [List.map_cons, List.nodup_cons] at h
    by_cases h0 : k₀ = k
    · subst h0
      have hput : assocPut ((k₀, v₀) :: t) k₀ v = (k₀, v) :: t := by
        simp [assocPut]
      rw [hput]
      simp only [List.map_cons, List.nodup_cons]
      exact h
    · simp only [assocPut, if_neg h0, List.map_cons, List.nodup_cons]
      refine ⟨fun hc => ?_, ih h.2⟩
      rcases assocPut_keys_sub t k v k₀ hc with h' | h'
      · exact h.1 h'
      · exact h0 h'

theorem assocFind_of_mem_nodup {α β : Type} [DecidableEq α] (s : List (α × β)) (k : α) (v : β)
    (hnd : (s.map Prod.fst).Nodup) (h : (k, v) ∈ s) : assocFind s k = some v := by
  induction s with
  | nil => simp at h
  | cons kv t ih =>
    obtain ⟨k₀, v₀⟩ := kv
    simp only [List.map_cons, List.nodup_cons] at hnd
    rcases List.mem_cons.1 h with h1 | h1
    · rw [Prod.ext_iff] at h1
      obtain ⟨hk, hv⟩ := h1
      simp only at hk hv
      subst hk
      simp [assocFind, hv]
    · have hk : k₀ ≠ k := by
        intro hh
        subst hh
        exact hnd.1 (List.mem_map.2 ⟨(k₀, v), h1, rfl⟩)
      simp only [assocFind, if_neg hk]
      exact ih hnd.2 h1

/-! ## Helper lemmas: parent paths -/

theorem getParentPath_length_lt (p : RelPath) (h : getParentPath p ≠ []) :
    (getParentPath p).length < p.length := by
  unfold getParentPath at *
  split_ifs at h ⊢ with h1 h2
  · exact absurd rfl h
  · exact absurd rfl h
  · have hlen : ¬p.length ≤ 1 := h2
    simp only [List.length_dropLast]
    omega

theorem getParentPath_eq_dropLast (p : RelPath) (h : 2 ≤ p.length) :
    getParentPath p = p.dropLast := by
  unfold getParentPath
  have h1 : p ≠ [] := by
    intro hh; subst hh; simp at h
  have h2 : ¬p.length ≤ 1 := by omega
  simp [h1, h2]

/-! ## Helper lemmas: the unfolding equation of the ordering recursion -/

theorem runBody_congr (s : Suites)
    (r₁ r₂ : RelPath → Int → List RelPath → List Test × List RelPath)
    (p : RelPath) (m : Int) (v : List RelPath)
    (h : getParentPath p ≠ [] → r₁ (getParentPath p) (-1) v = r₂ (getParentPath p) (-1) v) :
    runBody s r₁ p m v = runBody s r₂ p m v := by
  unfold runBody
  by_cases hv : p ∈ v
  · simp [hv]
  · simp only [if_neg hv]
    cases hlk : lookupSuite s p with
    | none => rfl
    | some suite =>
      by_cases hgp : getParentPath p ≠ []
      · simp only [if_pos hgp, h hgp]
      · simp only [if_neg hgp]

theorem runWithVisitedF_congr (s : Suites) :
    ∀ n₁ n₂ p m v, p.length < n₁ → p.length < n₂ →
      runWithVisitedF s n₁ p m v = runWithVisitedF s n₂ p m v := by
  intro n₁
  induction n₁ with
  | zero => intro n₂ p m v h1 _; omega
  | succ k ih =>
    intro n₂ p m v h1 h2
    cases n₂ with
    | zero => omega
    | succ l =>
      show runBody s (runWithVisitedF s k) p m v = runBody s (runWithVisitedF s l) p m v
      apply runBody_congr
      intro hgp
      have hlt := getParentPath_length_lt p hgp
      exact ih l _ _ _ (by omega) (by omega)

/-- The recursion of `runWithVisited` satisfies the equation of the Go code:
each call may first expand its non-root parent. -/
theorem runWithVisited_eq (s : Suites) (p : RelPath) (m : Int) (v : List RelPath) :
    runWithVisited s p m v = runBody s (runWithVisited s) p m v := by
  show runBody s (runWithVisitedF s p.length) p m v = _
  apply runBody_congr
  intro hgp
  have hlt := getParentPath_length_lt p hgp
  exact runWithVisitedF_congr s p.length ((getParentPath p).length + 1) _ _ _ hlt (by omega)

/-! ## Helper lemmas: string comparison is a strict total order -/

theorem charListLt_iff_lex : ∀ a b : List Char, charListLt a b = true ↔ List.Lex (· < ·) a b
  | [], [] => by
    constructor
    · intro h
      simp [charListLt] at h
    · intro h
      cases h
  | [], _ :: _ => by
    constructor
    · intro _
      exact List.Lex.nil
    · intro _
      simp [charListLt]
  | _ :: _, [] => by
    constructor
    · intro h
      simp [charListLt] at h
    · intro h
      cases h
  | a :: as, b :: bs => by
    simp only [charListLt]
    by_cases hab : a < b
    · rw [if_pos hab]
      constructor
      · intro _
        exact List.Lex.rel hab
      · intro _
        rfl
    · rw [if_neg hab]
      by_cases hba : b < a
      · rw [if_pos hba]
        constructor
        · intro h
          exact absurd h (by simp)
        · intro h
          cases h with
          | cons h' => exact absurd hba (lt_irrefl a)
          | rel h' => exact absurd h' (not_lt.2 (le_of_lt hba))
      · rw [if_neg hba]
        have hab' : a = b := le_antisymm (not_lt.1 hba) (not_lt.1 hab)
        subst hab'
        rw [charListLt_iff_lex as bs]
        constructor
        · intro h
          exact List.Lex.cons h
        · intro h
          cases h with
          | cons h' => exact h'
          | rel h' => exact absurd h' (lt_irrefl a)

theorem charListLt_asymm (a b : List Char) (h : charListLt a b = true) :
    charListLt b a = false := by
  rw [Bool.eq_false_iff]
  intro h'
  rw [charListLt_iff_lex] at h h'
  exact asymm h h'

theorem charListLt_trans (a b c : List Char) (h1 : charListLt a b = true)
    (h2 : charListLt b c = true) : charListLt a c = true := by
  rw [charListLt_iff_lex] at h1 h2 ⊢
  exact Trans.trans h1 h2

theorem charListLt_connex (a b : List Char) (h : a ≠ b) :
    charListLt a b = true ∨ charListLt b a = true := by
  have inst : IsTrichotomous (List Char) (List.Lex (· < ·)) := inferInstance
  rcases @trichotomous _ _ inst a b with h' | h' | h'
  · left
    rw [charListLt_iff_lex]
    exact h'
  · exact absurd h' h
  · right
    rw [charListLt_iff_lex]
    exact h'

theorem strLt_asymm (a b : String) (h : strLt a b = true) : strLt b a = false :=
  charListLt_asymm _ _ h

theorem strLt_trans (a b c : String) (h1 : strLt a b = true) (h2 : strLt b c = true) :
    strLt a c = true :=
  charListLt_trans _ _ _ h1 h2

theorem strLt_connex (a b : String) (h : a ≠ b) : strLt a b = true ∨ strLt b a = true := by
  apply charListLt_connex
  intro hh
  apply h
  cases a
  cases b
  simp only at hh
  rw [hh]

instance : IsTotal String strLeR where
  total a b := by
    unfold strLeR strLe
    by_cases h : strLt b a = true
    · right
      rw [strLt_asymm b a h]
      rfl
    · left
      rw [Bool.not_eq_true] at h
      rw [h]
      rfl

instance : IsTrans String strLeR where
  trans a b c h1 h2 := by
    unfold strLeR strLe at *
    rw [Bool.not_eq_true'] at h1 h2 ⊢
    by_cases hca : strLt c a = true
    · by_cases hcb : strLt c b = true
      · rw [hcb] at h2
        exact absurd h2 (by simp)
      · by_cases hab : a = b
        · rw [hab] at hca
          rw [hca] at h2
          exact absurd h2 (by simp)
        · rcases strLt_connex a b hab with h | h
          · have := strLt_trans c a b hca h
            rw [this] at h2
            exact absurd h2 (by simp)
          · rw [h] at h1
            exact absurd h1 (by simp)
    · rw [Bool.not_eq_true] at hca
      exact hca

/-! ## Helper lemmas: the child comparator -/

theorem childLess_spec (a b : Test) :
    childLess a b = true ↔
      (0 ≤ a.Seq ∧ 0 ≤ b.Seq ∧ a.Seq < b.Seq) ∨
      (0 ≤ a.Seq ∧ b.Seq < 0) ∨
      (a.Seq < 0 ∧ b.Seq < 0 ∧ strLt a.Name b.Name = true) := by
  unfold childLess
  by_cases h1 : 0 ≤ a.Seq ∧ 0 ≤ b.Seq
  · rw [if_pos h1]
    simp only [decide_eq_true_eq]
    constructor
    · intro h
      exact Or.inl ⟨h1.1, h1.2, h⟩
    · rintro (⟨_, _, h⟩ | ⟨_, h⟩ | ⟨h, _, _⟩)
      · exact h
      · omega
      · omega
  · rw [if_neg h1]
    by_cases h2 : 0 ≤ a.Seq
    · rw [if_pos h2]
      have hb : b.Seq < 0 := by
        rcases not_and_or.1 h1 with h | h
        · exact absurd h2 h
        · omega
      constructor
      · intro _
        exact Or.inr (Or.inl ⟨h2, hb⟩)
      · intro _
        rfl
    · rw [if_neg h2]
      by_cases h3 : 0 ≤ b.Seq
      · rw [if_pos h3]
        constructor
        · intro h
          exact absurd h (by simp)
        · rintro (⟨h, _⟩ | ⟨h, _⟩ | ⟨_, h, _⟩) <;> omega
      · rw [if_neg h3]
        constructor
        · intro h
          exact Or.inr (Or.inr ⟨by omega, by omega, h⟩)
        · rintro (⟨h, _⟩ | ⟨h, _⟩ | ⟨_, _, h⟩)
          · omega
          · omega
          · exact h

theorem childLess_asymm (a b : Test) (h : childLess a b = true) : childLess b a = false := by
  rw [childLess_spec] at h
  rw [Bool.eq_false_iff]
  intro h'
  rw [childLess_spec] at h'
  rcases h with ⟨ha, hb, hab⟩ | ⟨ha, hb⟩ | ⟨ha, hb, hab⟩ <;>
    rcases h' with ⟨ha', hb', hab'⟩ | ⟨ha', hb'⟩ | ⟨ha', hb', hab'⟩ <;> try omega
  rw [strLt_asymm _ _ hab] at hab'
  exact absurd hab' (by simp)

theorem childLE_total' (a b : Test) : childLE a b ∨ childLE b a := by
  unfold childLE
  by_cases h : childLess b a = true
  · right
    exact childLess_asymm b a h
  · left
    rwa [Bool.not_eq_true] at h

theorem childLE_trans' (a b c : Test) (h1 : childLE a b) (h2 : childLE b c) : childLE a c := by
  unfold childLE at *
  rw [Bool.eq_false_iff] at h1 h2 ⊢
  have H1' : ¬((0 ≤ b.Seq ∧ 0 ≤ a.Seq ∧ b.Seq < a.Seq) ∨ (0 ≤ b.Seq ∧ a.Seq < 0) ∨
      (b.Seq < 0 ∧ a.Seq < 0 ∧ strLt b.Name a.Name = true)) :=
    fun h => h1 ((childLess_spec b a).2 h)
  have H2'' : ¬((0 ≤ c.Seq ∧ 0 ≤ b.Seq ∧ c.Seq < b.Seq) ∨ (0 ≤ c.Seq ∧ b.Seq < 0) ∨
      (c.Seq < 0 ∧ b.Seq < 0 ∧ strLt c.Name b.Name = true)) :=
    fun h => h2 ((childLess_spec c b).2 h)
  intro hca
  rw [childLess_spec] at hca
  rcases hca with ⟨hc, ha, hlt⟩ | ⟨hc, ha⟩ | ⟨hc, ha, hlt⟩
  · by_cases hb : 0 ≤ b.Seq
    · refine H1' (Or.inl ⟨hb, ha, ?_⟩)
      by_contra hba
      exact H2'' (Or.inl ⟨hc, hb, by omega⟩)
    · exact H2'' (Or.inr (Or.inl ⟨hc, by omega⟩))
  · by_cases hb : 0 ≤ b.Seq
    · exact H1' (Or.inr (Or.inl ⟨hb, ha⟩))
    · exact H2'' (Or.inr (Or.inl ⟨hc, by omega⟩))
  · by_cases hb : 0 ≤ b.Seq
    · exact H1' (Or.inr (Or.inl ⟨hb, ha⟩))
    · by_cases hcb : strLt c.Name b.Name = true
      · exact H2'' (Or.inr (Or.inr ⟨by omega, by omega, hcb⟩))
      · refine H1' (Or.inr (Or.inr ⟨by omega, by omega, ?_⟩))
        by_cases heq : c.Name = b.Name
        · rw [← heq]
          exact hlt
        · rcases strLt_connex c.Name b.Name heq with h | h
          · exact absurd h hcb
          · exact strLt_trans _ _ _ h hlt

instance : IsTotal Test childLE where
  total := childLE_total'

instance : IsTrans Test childLE where
  trans := childLE_trans'

/-! ## Helper lemmas: sorted permutations with no ties are unique -/

theorem sorted_perm_unique {α : Type} {le : α → α → Prop} :
    ∀ (l₁ l₂ : List α), List.Perm l₁ l₂ → List.Sorted le l₁ → List.Sorted le l₂ →
      (∀ a b, a ∈ l₁ → b ∈ l₁ → le a b → le b a → a = b) → l₁ = l₂
  | [], l₂, hp, _, _, _ => (List.Perm.nil_eq hp).symm ▸ rfl
  | a :: t, [], hp, _, _, _ => absurd (List.Perm.symm hp) (by simp)
  | a :: t, b :: t₂, hp, h₁, h₂, hanti => by
    have hab : a = b := by
      by_cases hne : a = b
      · exact hne
      · have hamem : a ∈ b :: t₂ := hp.mem_iff.1 (by simp)
        have hbmem : b ∈ a :: t := hp.mem_iff.2 (by simp)
        have ha2 : a ∈ t₂ := by
          rcases List.mem_cons.1 hamem with h | h
          · exact absurd h hne
          · exact h
        have hb2 : b ∈ t := by
          rcases List.mem_cons.1 hbmem with h | h
          · exact absurd h.symm hne
          · exact h
        have hle1 : le a b := (List.sorted_cons.1 h₁).1 b hb2
        have hle2 : le b a := (List.sorted_cons.1 h₂).1 a ha2
        exact hanti a b (by simp) (by simp [hb2]) hle1 hle2
    subst hab
    have hpt : List.Perm t t₂ := List.Perm.cons_inv hp
    have heq : t = t₂ :=
      sorted_perm_unique t t₂ hpt (List.sorted_cons.1 h₁).2 (List.sorted_cons.1 h₂).2
        (fun x y hx hy h h' => hanti x y (by simp [hx]) (by simp [hy]) h h')
    rw [heq]

/-! ## Helper lemmas: emitted tests are valid -/

theorem collectChildTests_valid (s : Suites) (u : Suite) (m : Int) (t : Test)
    (ht : t ∈ collectChildTests s u m) : t.IsValid = true := by
  unfold collectChildTests at ht
  rw [List.mem_filterMap] at ht
  obtain ⟨kv, _, hf⟩ := ht
  unfold collectOne at hf
  split at hf
  · exact absurd hf (by simp)
  · split at hf
    · exact absurd hf (by simp)
    · split at hf
      · exact absurd hf (by simp)
      · split at hf
        · exact absurd hf (by simp)
        · rename_i hval _
          cases hf
          rwa [Bool.not_eq_false] at hval

theorem runWithVisitedF_valid (s : Suites) :
    ∀ n p m v t, t ∈ (runWithVisitedF s n p m v).1 → t.IsValid = true := by
  intro n
  induction n with
  | zero =>
    intro p m v t ht
    simp [runWithVisitedF] at ht
  | succ k ih =>
    intro p m v t ht
    have ht' : t ∈ (runBody s (runWithVisitedF s k) p m v).1 := ht
    unfold runBody at ht'
    by_cases hv : p ∈ v
    · rw [if_pos hv] at ht'
      simp at ht'
    · rw [if_neg hv] at ht'
      cases hlk : lookupSuite s p with
      | none =>
        rw [hlk] at ht'
        simp at ht'
      | some suite =>
        rw [hlk] at ht'
        simp only [List.mem_append] at ht'
        rcases ht' with (ht' | ht') | ht'
        · by_cases hgp : getParentPath p ≠ []
          · rw [if_pos hgp] at ht'
            exact ih _ _ _ _ ht'
          · rw [if_neg hgp] at ht'
            simp at ht'
        · split at ht'
          · split at ht'
            · rename_i hval
              rw [List.mem_singleton] at ht'
              subst ht'
              exact hval
            · simp at ht'
          · simp at ht'
        · have := (List.perm_insertionSort childLE (collectChildTests s suite m)).mem_iff.1 ht'
          exact collectChildTests_valid s suite m t this

/-- C7: every TestCase emitted by the ordering engine, for any forest, start
path, `maxSequence` and visited set, is valid: it has both a request and a
response fixture; absent, invalid, or invalid-children base cases
contribute nothing. -/
theorem C7_ordering_emits_only_valid (s : Suites) (p : RelPath) (m : Int)
    (v : List RelPath) (t : Test) (ht : t ∈ (runWithVisited s p m v).1) :
    t.IsValid = true :=
  runWithVisitedF_valid s _ p m v t ht

/-- Witness for C7: a concretely emitted test of `exForest` is valid. -/
theorem C7_witness : exBaseA ∈ (runWithVisited exForest ["001_A"] (-1) []).1 ∧
    exBaseA.IsValid = true :=
  ⟨by decide, C7_ordering_emits_only_valid exForest ["001_A"] (-1) [] exBaseA (by decide)⟩

/-! ## Helper lemmas: the sorted-children block -/

theorem childLE_imp (a b : Test) (h : childLE a b) :
    (0 ≤ b.Seq → 0 ≤ a.Seq) ∧ (a.Seq < 0 → b.Seq < 0 → strLe a.Name b.Name = true) := by
  unfold childLE at h
  constructor
  · intro hb
    by_contra ha
    have hc : childLess b a = true := (childLess_spec b a).2 (Or.inr (Or.inl ⟨hb, by omega⟩))
    rw [h] at hc
    exact absurd hc (by simp)
  · intro ha hb
    unfold strLe
    have hf : strLt b.Name a.Name = false := by
      rw [Bool.eq_false_iff]
      intro hlt
      have hc : childLess b a = true :=
        (childLess_spec b a).2 (Or.inr (Or.inr ⟨hb, ha, hlt⟩))
      rw [h] at hc
      exact absurd hc (by simp)
    rw [hf]
    rfl

/-- C6: in the expansion of any suite, the emitted children form a block
sorted so that every unsequenced child comes after all sequenced children,
and unsequenced children are in ascending lexicographic name order. -/
theorem C6_unsequenced_after_sequenced (s : Suites) (p : RelPath) (m : Int) (u : Suite)
    (hu : lookupSuite s p = some u) :
    ∃ pre, run s p m = pre ++ List.insertionSort childLE (collectChildTests s u m) ∧
      (List.insertionSort childLE (collectChildTests s u m)).Pairwise
        (fun a b => (0 ≤ b.Seq → 0 ≤ a.Seq) ∧
          (a.Seq < 0 → b.Seq < 0 → strLe a.Name b.Name = true)) := by
  have hsorted : List.Sorted childLE (List.insertionSort childLE (collectChildTests s u m)) :=
    List.sorted_insertionSort childLE (collectChildTests s u m)
  refine ⟨?_, ?_, ?_⟩
  · exact ((if getParentPath p ≠ [] then runWithVisited s (getParentPath p) (-1) []
        else ([], [])).1 ++
      (match u.Base with
       | some b => if b.IsValid then [b] else []
       | none => []))
  · unfold run
    rw [runWithVisited_eq]
    unfold runBody
    rw [if_neg (List.not_mem_nil p), hu]
  · exact List.Pairwise.imp (fun h => childLE_imp _ _ h) hsorted

/-- Witness for C6 on `exForest`: the root's two ordering facts hold. -/
theorem C6_witness :
    lookupSuite exForest [] =
      some { Path := [], Base := some exRootBase, Tests := [("001_A", ["001_A"])], refs := 1 } ∧
    ∃ pre, run exForest [] (-1) = pre ++ List.insertionSort childLE
        (collectChildTests exForest
          { Path := [], Base := some exRootBase, Tests := [("001_A", ["001_A"])], refs := 1 }
          (-1)) ∧
      (List.insertionSort childLE
        (collectChildTests exForest
          { Path := [], Base := some exRootBase, Tests := [("001_A", ["001_A"])], refs := 1 }
          (-1))).Pairwise
        (fun a b => (0 ≤ b.Seq → 0 ≤ a.Seq) ∧
          (a.Seq < 0 → b.Seq < 0 → strLe a.Name b.Name = true)) :=
  ⟨by decide, C6_unsequenced_after_sequenced exForest [] (-1) _ (by decide)⟩

/-- C10: a start path that is not a key of the forest yields the empty
sequence: no error, and no tests at all, including no ancestor tests,
because the missing-path check precedes parent expansion. -/
theorem C10_missing_start_is_empty (s : Suites) (p : RelPath) (m : Int)
    (hp : lookupSuite s p = none) : run s p m = [] := by
  unfold run
  rw [runWithVisited_eq]
  unfold runBody
  rw [if_neg (List.not_mem_nil p), hp]

/-- Witness for C10: a missing path in the populated `exForest` yields no
tests, although ancestors of the missing path exist and have tests. -/
theorem C10_witness : lookupSuite exForest ["zzz"] = none ∧ run exForest ["zzz"] (-1) = [] :=
  ⟨by decide, C10_missing_start_is_empty exForest ["zzz"] (-1) (by decide)⟩

/-! ## Helper lemmas: SKIP exclusion during discovery -/

theorem parseTestFile_skipFree (basePath rel : List String) (d : Bool) (t : Test)
    (h : parseTestFile basePath rel d = some t) :
    ∀ seg ∈ basePath ++ rel, strStarts seg "SKIP" = false := by
  unfold parseTestFile at h
  split at h
  · exact absurd h (by simp)
  · split at h
    · exact absurd h (by simp)
    · rename_i hany
      intro seg hseg
      rw [Bool.eq_false_iff]
      intro htrue
      exact hany (List.any_eq_true.2 ⟨seg, hseg, htrue⟩)

theorem parseTestFile_dirPath (basePath rel : List String) (d : Bool) (t : Test)
    (h : parseTestFile basePath rel d = some t) : t.Dir = rel.dropLast := by
  simp only [parseTestFile] at h
  split at h
  · exact absurd h (by simp)
  · split at h
    · exact absurd h (by simp)
    · split at h
      · exact absurd h (by simp)
      · split at h
        · cases h
          rfl
        · split at h
          · cases h
            rfl
          · split at h
            · cases h
              rfl
            · split at h
              · cases h
                rfl
              · exact absurd h (by simp)

theorem getParentPath_sublist (q : RelPath) : List.Sublist (getParentPath q) q := by
  unfold getParentPath
  split_ifs
  · exact List.nil_sublist q
  · exact List.nil_sublist q
  · exact List.dropLast_sublist q

theorem getParentPath_ne (q : RelPath) (h : q ≠ []) : getParentPath q ≠ q := by
  by_cases h0 : getParentPath q = []
  · rw [h0]
    exact fun hh => h hh.symm
  · have := getParentPath_length_lt q h0
    intro hh
    rw [hh] at this
    omega

theorem mem_append_sub {seg : String} {base q r : RelPath} (hsub : List.Sublist q r)
    (h : seg ∈ base ++ q) : seg ∈ base ++ r := by
  rw [List.mem_append] at h ⊢
  rcases h with h | h
  · exact Or.inl h
  · exact Or.inr (hsub.subset h)

theorem walkStep_preserves (basePath : List String) (s s' : Suites) (rel : RelPath) (d : Bool)
    (h : walkStep basePath s rel d = .ok s')
    (hnd : (s.map Prod.fst).Nodup) (hpc : pathCons s) (hsk : skipInv basePath s) :
    (s'.map Prod.fst).Nodup ∧ pathCons s' ∧ skipInv basePath s' := by
  unfold walkStep at h
  split at h
  · -- directory entry: insert a fresh empty node at `rel`
    cases h
    refine ⟨assocPut_nodup_keys s rel _ hnd, ?_, ?_⟩
    · intro p u hl
      by_cases hp : p = rel
      · subst hp
        rw [show lookupSuite (assocPut s p { Path := p }) p = some { Path := p } from
          assocFind_put_self s p _] at hl
        cases hl
        rfl
      · rw [show lookupSuite (assocPut s rel { Path := rel }) p = lookupSuite s p from
          assocFind_put_ne s rel _ p hp] at hl
        exact hpc p u hl
    · intro p u hl hex
      by_cases hp : p = rel
      · subst hp
        rw [show lookupSuite (assocPut s p { Path := p }) p = some { Path := p } from
          assocFind_put_self s p _] at hl
        cases hl
        exact ⟨rfl, rfl⟩
      · rw [show lookupSuite (assocPut s rel { Path := rel }) p = lookupSuite s p from
          assocFind_put_ne s rel _ p hp] at hl
        exact hsk p u hl hex
  · -- file entry
    cases hparse : parseTestFile basePath rel d with
    | none =>
      rw [hparse] at h
      cases h
      exact ⟨hnd, hpc, hsk⟩
    | some test =>
      rw [hparse] at h
      simp only at h
      have hskfree := parseTestFile_skipFree basePath rel d test hparse
      have hdir := parseTestFile_dirPath basePath rel d test hparse
      have hdirfree : ∀ seg ∈ basePath ++ test.Dir, strStarts seg "SKIP" = false := by
        intro seg hseg
        refine hskfree seg ?_
        rw [hdir] at hseg
        exact mem_append_sub (List.dropLast_sublist rel) hseg
      cases hlk : lookupSuite s test.Dir with
      | none =>
        rw [hlk] at h
        exact absurd h (by simp)
      | some suite =>
        rw [hlk] at h
        simp only at h
        have hsp : suite.Path = test.Dir := hpc _ _ hlk
        have hparfree : ∀ seg ∈ basePath ++ getParentPath test.Dir,
            strStarts seg "SKIP" = false := by
          intro seg hseg
          exact hdirfree seg (mem_append_sub (getParentPath_sublist test.Dir) hseg)
        -- facts used to show neither written key can satisfy the skip condition
        have hputs : ∀ (s0 : Suites) (k : RelPath) (w : Suite),
            (∀ seg ∈ basePath ++ k, strStarts seg "SKIP" = false) →
            (s0.map Prod.fst).Nodup → pathCons s0 → skipInv basePath s0 → w.Path = k →
            ((assocPut s0 k w).map Prod.fst).Nodup ∧ pathCons (assocPut s0 k w) ∧
              skipInv basePath (assocPut s0 k w) := by
          intro s0 k w hkfree hnd0 hpc0 hsk0 hwp
          refine ⟨assocPut_nodup_keys s0 k w hnd0, ?_, ?_⟩
          · intro p u hl
            by_cases hp : p = k
            · subst hp
              rw [show lookupSuite (assocPut s0 p w) p = some w from
                assocFind_put_self s0 p w] at hl
              cases hl
              exact hwp
            · rw [show lookupSuite (assocPut s0 k w) p = lookupSuite s0 p from
                assocFind_put_ne s0 k w p hp] at hl
              exact hpc0 p u hl
          · intro p u hl hex
            by_cases hp : p = k
            · subst hp
              obtain ⟨seg, hseg, htrue⟩ := hex
              rw [hkfree seg hseg] at htrue
              exact absurd htrue (by simp)
            · rw [show lookupSuite (assocPut s0 k w) p = lookupSuite s0 p from
                assocFind_put_ne s0 k w p hp] at hl
              exact hsk0 p u hl hex
        split at h
        · -- non-root: write parent then the suite itself
          cases hpar : lookupSuite s (getParentPath suite.Path) with
          | none =>
            rw [hpar] at h
            exact absurd h (by simp)
          | some parent =>
            rw [hpar] at h
            cases h
            have hpp : parent.Path = getParentPath suite.Path := hpc _ _ hpar
            have hparfree' : ∀ seg ∈ basePath ++ getParentPath suite.Path,
                strStarts seg "SKIP" = false := by
              rw [hsp]
              exact hparfree
            refine hputs _ test.Dir _ hdirfree ?_ ?_ ?_ ?_
            · exact (hputs s _ _ hparfree' hnd hpc hsk
                (by split <;> (try split) <;> simp [hpp])).1
            · exact (hputs s _ _ hparfree' hnd hpc hsk
                (by split <;> (try split) <;> simp [hpp])).2.1
            · exact (hputs s _ _ hparfree' hnd hpc hsk
                (by split <;> (try split) <;> simp [hpp])).2.2
            · split <;> (try split) <;> simp [hsp]
        · -- root suite: only the suite itself is written back
          cases h
          exact hputs s test.Dir _ hdirfree hnd hpc hsk (by simp [hsp])

theorem foldWalk_preserves (basePath : List String) :
    ∀ (wl : List (RelPath × Bool)) (s s' : Suites),
      foldWalk basePath wl s = .ok s' →
      (s.map Prod.fst).Nodup → pathCons s → skipInv basePath s →
      (s'.map Prod.fst).Nodup ∧ pathCons s' ∧ skipInv basePath s' := by
  intro wl
  induction wl with
  | nil =>
    intro s s' h hnd hpc hsk
    cases h
    exact ⟨hnd, hpc, hsk⟩
  | cons e rest ih =>
    intro s s' h hnd hpc hsk
    obtain ⟨rel, d⟩ := e
    unfold foldWalk at h
    cases hstep : walkStep basePath s rel d with
    | error e' =>
      rw [hstep] at h
      exact absurd h (by simp)
    | ok s1 =>
      rw [hstep] at h
      obtain ⟨hnd1, hpc1, hsk1⟩ := walkStep_preserves basePath s s1 rel d hstep hnd hpc hsk
      exact ih s1 s' h hnd1 hpc1 hsk1

/-- C5: after a successful `DiscoverTests`, the forest has no node whose
full path contains a segment equal to `SKIP` or beginning with `SKIP` —
the marked directory and all its descendants are absent, since every file
beneath the marker is rejected and the empty nodes are pruned. -/
theorem C5_skip_subtree_absent (basePath : List String) (walk : List (RelPath × Bool))
    (s : Suites) (h : DiscoverTests basePath walk = .ok s) (p : RelPath) (u : Suite)
    (hu : lookupSuite s p = some u) :
    ∀ seg ∈ basePath ++ p, strStarts seg "SKIP" = false := by
  unfold DiscoverTests at h
  cases hfw : foldWalk basePath walk [] with
  | error e =>
    rw [hfw] at h
    exact absurd h (by simp)
  | ok s0 =>
    rw [hfw] at h
    simp only at h
    cases h
    obtain ⟨hnd, _, hskip⟩ := foldWalk_preserves basePath walk [] s0 hfw
      (by simp) (by intro p u hl; simp [lookupSuite, assocFind] at hl)
      (by intro p u hl; simp [lookupSuite, assocFind] at hl)
    intro seg hseg
    rw [Bool.eq_false_iff]
    intro htrue
    have hmem := assocFind_mem _ _ _ hu
    unfold pruneSuites at hmem
    rw [List.mem_filter] at hmem
    obtain ⟨hmem0, hpred⟩ := hmem
    have hl0 : lookupSuite s0 p = some u := assocFind_of_mem_nodup _ _ _ hnd hmem0
    obtain ⟨hb, htests⟩ := hskip p u hl0 ⟨seg, hseg, htrue⟩
    rw [hb, htests] at hpred
    simp at hpred

/-- Witness for C5: discovering a tree with a `SKIP_x` subtree succeeds and
drops that subtree; every surviving node path is SKIP-free, checked on the
surviving child `A`. -/
theorem C5_witness :
    DiscoverTests ["h"] c5walk = .ok c5forest ∧
    ∀ seg ∈ (["h"] ++ ["A"] : List String), strStarts seg "SKIP" = false :=
  ⟨by rfl,
   C5_skip_subtree_absent ["h"] c5walk c5forest (by rfl) ["A"] c5nodeA (by decide)⟩


/-! ## C9: the TestCase name keeps the full directory base name -/

/-- Counterexample for C9: a directory named `001_First` yields a TestCase
whose name is `001_First`, not `First` — the numeric ordering prefix is not
stripped from the name. -/
theorem C9_counterexample :
    (parseTestFile ["h"] ["001_First", "request.gql"] false).map Test.Name =
      some "001_First" ∧ ("001_First" : String) ≠ "First" := by
  constructor
  · decide
  · decide

/-- C9 amended: the name equals the containing directory's base name
unchanged — the numeric prefix is retained in the name and only parsed into
the sequence token. -/
theorem C9_amended_name_is_dir_base (basePath pre : List String) (dname fname : String)
    (t : Test) (hd : dname ≠ "")
    (h : parseTestFile basePath (pre ++ [dname, fname]) false = some t) :
    t.Name = dname := by
  have hrel : pre ++ [dname, fname] = (pre ++ [dname]) ++ [fname] := by simp
  rw [hrel] at h
  simp only [parseTestFile] at h
  split at h
  · exact absurd h (by simp)
  · split at h
    · exact absurd h (by simp)
    · split at h
      · exact absurd h (by simp)
      · split at h
        · cases h
          simp [hd, List.getLast?_concat, List.dropLast_concat]
        · split at h
          · cases h
            simp [hd, List.getLast?_concat, List.dropLast_concat]
          · split at h
            · cases h
              simp [hd, List.getLast?_concat, List.dropLast_concat]
            · split at h
              · cases h
                simp [hd, List.getLast?_concat, List.dropLast_concat]
              · exact absurd h (by simp)

/-- Witness for the amended C9 at a concrete nested directory. -/
theorem C9_amended_witness :
    parseTestFile ["h"] (["p"] ++ ["001_First", "request.gql"]) false =
      some { Name := "001_First", Dir := ["p", "001_First"], Seq := 1,
             Request := ["h", "p", "001_First", "request.gql"] } ∧
    ("001_First" : String) ≠ "" ∧
    ({ Name := "001_First", Dir := ["p", "001_First"], Seq := 1,
       Request := ["h", "p", "001_First", "request.gql"] } : Test).Name = "001_First" :=
  ⟨by decide, by decide,
   C9_amended_name_is_dir_base ["h"] ["p"] "001_First" "request.gql" _ (by decide) (by decide)⟩

/-! ## C8: the base-case merge -/

/-- Counterexample for C8: when two fragments both set the same field with
different non-empty values, the merge is order-dependent and the later
value replaces the already-set field — last-write-wins, not
first-write-wins. -/
theorem C8_counterexample :
    mergeTest c8a c8b ≠ mergeTest c8b c8a ∧
    (mergeTest c8a c8b).Request = c8b.Request ∧ c8a.Request ≠ c8b.Request := by
  refine ⟨by decide, by decide, by decide⟩

/-- C8 amended: the merge is associative with the last non-empty value
winning per field, and it is commutative — hence independent of file
visitation order — whenever the two fragments carry the same directory
metadata and set disjoint field sets, as fragments built from distinct
recognized file names of one directory always do. -/
theorem C8_amended_merge_assoc_comm :
    (∀ a b c : Test, mergeTest (mergeTest a b) c = mergeTest a (mergeTest b c)) ∧
    (∀ a b : Test, a.Name = b.Name → a.Dir = b.Dir → a.Seq = b.Seq →
      (a.Request = [] ∨ b.Request = []) → (a.Response = [] ∨ b.Response = []) →
      (a.Variables = [] ∨ b.Variables = []) → (a.Transform = [] ∨ b.Transform = []) →
      mergeTest a b = mergeTest b a) := by
  constructor
  · intro a b c
    simp only [mergeTest, Test.mk.injEq, true_and]
    refine ⟨?_, ?_, ?_, ?_⟩ <;> split_ifs <;> simp_all
  · intro a b hn hd hs h1 h2 h3 h4
    simp only [mergeTest, Test.mk.injEq]
    refine ⟨hn, hd, hs, ?_, ?_, ?_, ?_⟩
    · rcases h1 with h | h <;> rw [h] <;> split_ifs <;> simp_all
    · rcases h2 with h | h <;> rw [h] <;> split_ifs <;> simp_all
    · rcases h3 with h | h <;> rw [h] <;> split_ifs <;> simp_all
    · rcases h4 with h | h <;> rw [h] <;> split_ifs <;> simp_all

/-- Witness for the amended C8: merging request-only and response-only
fragments of one directory commutes. -/
theorem C8_amended_witness :
    mergeTest { Name := "x", Dir := ["d"], Seq := -1, Request := ["h", "d", "r"] }
        { Name := "x", Dir := ["d"], Seq := -1, Response := ["h", "d", "s"] } =
      mergeTest { Name := "x", Dir := ["d"], Seq := -1, Response := ["h", "d", "s"] }
        { Name := "x", Dir := ["d"], Seq := -1, Request := ["h", "d", "r"] } :=
  C8_amended_merge_assoc_comm.2 _ _ rfl rfl rfl (by decide) (by decide) (by decide) (by decide)

/-! ## C3: runnable suite paths -/

theorem append_slash_inj : ∀ (x₁ x₂ r₁ r₂ : List Char), '/' ∉ x₁ → '/' ∉ x₂ →
    x₁ ++ '/' :: r₁ = x₂ ++ '/' :: r₂ → x₁ = x₂ ∧ r₁ = r₂
  | [], [], r₁, r₂, _, _, h => by
    simp only [List.nil_append, List.cons.injEq] at h
    exact ⟨rfl, h.2⟩
  | [], c :: cs, r₁, r₂, _, h2, h => by
    simp only [List.nil_append, List.cons_append, List.cons.injEq] at h
    cases h.1
    exact absurd (List.mem_cons_self _ _) h2
  | c :: cs, [], r₁, r₂, h1, _, h => by
    simp only [List.nil_append, List.cons_append, List.cons.injEq] at h
    cases h.1
    exact absurd (List.mem_cons_self _ _) h1
  | c₁ :: cs₁, c₂ :: cs₂, r₁, r₂, h1, h2, h => by
    simp only [List.cons_append, List.cons.injEq] at h
    obtain ⟨hc, ht⟩ := h
    subst hc
    have hrec := append_slash_inj cs₁ cs₂ r₁ r₂
      (fun hm => h1 (List.mem_cons_of_mem _ hm))
      (fun hm => h2 (List.mem_cons_of_mem _ hm)) ht
    exact ⟨by rw [hrec.1], hrec.2⟩

theorem string_data_inj (a b : String) (h : a.data = b.data) : a = b := by
  cases a
  cases b
  exact congrArg String.mk h

theorem pathChars_inj : ∀ (p q : RelPath), (∀ seg ∈ p, goodSeg seg) →
    (∀ seg ∈ q, goodSeg seg) → pathChars p = pathChars q → p = q
  | [], [], _, _, _ => rfl
  | [], [x], _, hq, h => by
    simp only [pathChars] at h
    have hx : x = "" := string_data_inj x "" h.symm
    exact absurd hx (hq x (by simp)).1
  | [x], [], hp, _, h => by
    simp only [pathChars] at h
    have hx : x = "" := string_data_inj x "" h
    exact absurd hx (hp x (by simp)).1
  | [], x :: y :: t, _, _, h => by
    simp only [pathChars] at h
    have hlen := congrArg List.length h
    simp only [List.length_nil, List.length_append, List.length_cons] at hlen
    exact absurd hlen (by omega)
  | x :: y :: t, [], _, _, h => by
    simp only [pathChars] at h
    have hlen := congrArg List.length h
    simp only [List.length_nil, List.length_append, List.length_cons] at hlen
    exact absurd hlen (by omega)
  | [x], [y], hp, hq, h => by
    simp only [pathChars] at h
    rw [string_data_inj x y h]
  | [x], y :: z :: t, hp, hq, h => by
    simp only [pathChars] at h
    have : '/' ∈ x.data := by
      rw [h]
      exact List.mem_append.2 (Or.inr (List.mem_cons_self _ _))
    exact absurd this (hp x (by simp)).2
  | x :: y :: t, [z], hp, hq, h => by
    simp only [pathChars] at h
    have : '/' ∈ z.data := by
      rw [← h]
      exact List.mem_append.2 (Or.inr (List.mem_cons_self _ _))
    exact absurd this (hq z (by simp)).2
  | x :: y :: t, z :: w :: u, hp, hq, h => by
    simp only [pathChars] at h
    have hinj := append_slash_inj x.data z.data (pathChars (y :: t)) (pathChars (w :: u))
      (hp x (by simp)).2 (hq z (by simp)).2 h
    have hx : x = z := string_data_inj x z hinj.1
    have hrest : (y :: t : RelPath) = w :: u :=
      pathChars_inj (y :: t) (w :: u)
        (fun seg hm => hp seg (List.mem_cons_of_mem _ hm))
        (fun seg hm => hq seg (List.mem_cons_of_mem _ hm)) hinj.2
    rw [hx, hrest]

theorem pathString_inj (p q : RelPath) (hp : ∀ seg ∈ p, goodSeg seg)
    (hq : ∀ seg ∈ q, goodSeg seg) (h : pathString p = pathString q) : p = q := by
  apply pathChars_inj p q hp hq
  have := congrArg String.data h
  simpa [pathString] using this

theorem mem_eq_of_nodup_keys {α β : Type} :
    ∀ (l : List (α × β)), ((l.map Prod.fst).Nodup) →
      ∀ (x y : α × β), x ∈ l → y ∈ l → x.1 = y.1 → x = y
  | [], _, x, y, hx, _, _ => absurd hx (by simp)
  | a :: t, hnd, x, y, hx, hy, h => by
    simp only [List.map_cons, List.nodup_cons] at hnd
    rcases List.mem_cons.1 hx with hx1 | hx1 <;> rcases List.mem_cons.1 hy with hy1 | hy1
    · rw [hx1, hy1]
    · subst hx1
      exact absurd (List.mem_map.2 ⟨y, hy1, h.symm⟩) hnd.1
    · subst hy1
      exact absurd (List.mem_map.2 ⟨x, hx1, h⟩) hnd.1
    · exact mem_eq_of_nodup_keys t hnd.2 x y hx1 hy1 h

/-- Counterexample for C3: on the forest discovered from `c5walk` the root
has reference count 1 (charged by its child directory `A`) and no sequenced
children, so `RunnableSuitePaths` omits the root path even though the root
is a genuine suite with a valid base case. -/
theorem C3_counterexample :
    DiscoverTests ["h"] c5walk = .ok c5forest ∧
    lookupSuite c5forest [] = some { Path := [], Base := some c5rootBase, refs := 1 } ∧
    c5rootBase.IsValid = true ∧
    RunnableSuitePaths c5forest = ["A"] ∧
    pathString [] ∉ RunnableSuitePaths c5forest :=
  ⟨by rfl, by decide, by decide, by decide, by decide⟩

/-- C3 amended: `RunnableSuitePaths` excludes exactly the nodes with a
positive reference count and an empty child-suite map, and is sorted and
duplicate-free; the root is NOT always included — discovery charges the
root one reference for each child directory holding a base case, so a root
without sequenced children is excluded like any other referenced leaf. -/
theorem C3_amended_runnable_selector (s : Suites)
    (hnd : (s.map Prod.fst).Nodup)
    (hseg : ∀ kv ∈ s, ∀ seg ∈ kv.1, goodSeg seg) :
    List.Sorted strLeR (RunnableSuitePaths s) ∧
    (RunnableSuitePaths s).Nodup ∧
    (∀ p, (∀ seg ∈ p, goodSeg seg) →
      (pathString p ∈ RunnableSuitePaths s ↔
        ∃ u, lookupSuite s p = some u ∧ ¬(0 < u.refs ∧ u.Tests = []))) := by
  have hperm := List.perm_insertionSort strLeR
    ((s.filter (fun kv => !(decide (0 < kv.2.refs) && decide (kv.2.Tests = [])))).map
      (fun kv => pathString kv.1))
  refine ⟨List.sorted_insertionSort strLeR _, ?_, ?_⟩
  · unfold RunnableSuitePaths
    rw [hperm.nodup_iff]
    have hfsub : List.Sublist
        (s.filter (fun kv => !(decide (0 < kv.2.refs) && decide (kv.2.Tests = [])))) s :=
      List.filter_sublist s
    refine List.Nodup.map_on ?_ ?_
    · intro x hx y hy hxy
      have hxs := hfsub.subset hx
      have hys := hfsub.subset hy
      have hkeys : x.1 = y.1 :=
        pathString_inj x.1 y.1 (hseg x hxs) (hseg y hys) hxy
      exact mem_eq_of_nodup_keys s hnd x y hxs hys hkeys
    · exact List.Nodup.of_map Prod.fst (List.Nodup.sublist (hfsub.map Prod.fst) hnd)
  · intro p hpseg
    unfold RunnableSuitePaths
    rw [hperm.mem_iff, List.mem_map]
    constructor
    · rintro ⟨kv, hkv, heq⟩
      have hkvs := (List.filter_sublist s).subset hkv
      have hkey : kv.1 = p := pathString_inj kv.1 p (hseg kv hkvs) hpseg heq
      rw [List.mem_filter] at hkv
      refine ⟨kv.2, ?_, ?_⟩
      · rw [← hkey]
        exact assocFind_of_mem_nodup s kv.1 kv.2 hnd hkv.1
      · have hpred := hkv.2
        intro hcontra
        rw [decide_eq_true hcontra.1, decide_eq_true hcontra.2] at hpred
        simp at hpred
    · rintro ⟨u, hu, hok⟩
      refine ⟨(p, u), ?_, rfl⟩
      rw [List.mem_filter]
      refine ⟨assocFind_mem s p u hu, ?_⟩
      by_cases hr : 0 < u.refs
      · have ht : ¬u.Tests = [] := fun ht => hok ⟨hr, ht⟩
        rw [decide_eq_true hr, decide_eq_false ht]
        rfl
      · rw [decide_eq_false hr]
        rfl

/-- Witness for the amended C3 on the discovered forest `c5forest`. -/
theorem C3_amended_witness :
    List.Sorted strLeR (RunnableSuitePaths c5forest) ∧
    (RunnableSuitePaths c5forest).Nodup ∧
    (∀ p, (∀ seg ∈ p, goodSeg seg) →
      (pathString p ∈ RunnableSuitePaths c5forest ↔
        ∃ u, lookupSuite c5forest p = some u ∧ ¬(0 < u.refs ∧ u.Tests = []))) :=
  C3_amended_runnable_selector c5forest (by decide) (by decide)

/-! ## C1: ancestor expansion -/

/-- The value of one expansion step at a present, unvisited suite. -/
theorem runBody_some (s : Suites)
    (rec : RelPath → Int → List RelPath → List Test × List RelPath)
    (p : RelPath) (m : Int) (v : List RelPath) (u : Suite)
    (hnv : p ∉ v) (hu : lookupSuite s p = some u) :
    runBody s rec p m v =
      ((if getParentPath p ≠ [] then rec (getParentPath p) (-1) v else ([], v)).1 ++
        (match u.Base with
         | some b => if b.IsValid then [b] else []
         | none => []) ++
        List.insertionSort childLE (collectChildTests s u m),
       p :: (if getParentPath p ≠ [] then rec (getParentPath p) (-1) v else ([], v)).2) := by
  unfold runBody
  rw [if_neg hnv, hu]

theorem run_ancestor_mem (s : Suites) :
    ∀ n (p : RelPath) (m : Int), p.length = n → p ≠ [] →
      (∀ k, 1 ≤ k → k ≤ p.length → ∃ u, lookupSuite s (p.take k) = some u) →
      ∀ k uq bq, 1 ≤ k → k ≤ p.length →
        lookupSuite s (p.take k) = some uq → uq.Base = some bq →
        bq.IsValid = true → bq ∈ (runWithVisited s p m []).1 := by
  intro n
  induction n using Nat.strong_induction_on with
  | _ n ih =>
    intro p m hlen hp hchain k uq bq hk1 hk2 hlq hbq hv
    have hplen : 1 ≤ p.length := by
      cases p with
      | nil => exact absurd rfl hp
      | cons a t => simp
    obtain ⟨u, hu⟩ : ∃ u, lookupSuite s p = some u := by
      have := hchain p.length hplen (le_refl _)
      rwa [List.take_length] at this
    rw [runWithVisited_eq, runBody_some s _ p m [] u (List.not_mem_nil p) hu]
    simp only [List.mem_append]
    by_cases hkeq : k = p.length
    · subst hkeq
      rw [List.take_length, hu] at hlq
      have huq : u = uq := by injection hlq
      left
      right
      rw [show u.Base = some bq from by rw [huq]; exact hbq]
      show bq ∈ (if bq.IsValid then [bq] else [])
      rw [if_pos hv]
      exact List.mem_singleton_self bq
    · have hklt : k < p.length := lt_of_le_of_ne hk2 hkeq
      have hlen2 : 2 ≤ p.length := by omega
      have hgp : getParentPath p = p.dropLast := getParentPath_eq_dropLast p hlen2
      have hdlen : p.dropLast.length = p.length - 1 := List.length_dropLast p
      have hdne : p.dropLast ≠ [] := by
        intro hh
        rw [hh] at hdlen
        simp at hdlen
        omega
      have hguard : getParentPath p ≠ [] := by
        rw [hgp]
        exact hdne
      rw [if_pos hguard]
      left
      left
      rw [hgp]
      have htake : ∀ k', k' ≤ p.length - 1 → p.dropLast.take k' = p.take k' := by
        intro k' hk'
        rw [List.dropLast_eq_take, List.take_take]
        congr 1
        omega
      refine ih p.dropLast.length (by omega) p.dropLast (-1) rfl hdne ?_ k uq bq hk1
        (by omega) ?_ hbq hv
      · intro k' h1 h2
        rw [htake k' (by omega)]
        exact hchain k' h1 (by omega)
      · rw [htake k (by omega)]
        exact hlq

/-- Counterexample for C1: starting from the depth-1 suite `001_A`, the
root's valid base case is never emitted — the engine skips expansion of the
empty parent path, so the root is not an expanded ancestor. -/
theorem C1_counterexample :
    lookupSuite exForest [] = some exNodeRoot ∧
    exNodeRoot.Base = some exRootBase ∧
    exRootBase.IsValid = true ∧
    exBaseA ∈ GetOrderedTests exForest ["001_A"] ∧
    exRootBase ∉ GetOrderedTests exForest ["001_A"] := by
  refine ⟨by decide, by decide, by decide, by decide, by decide⟩

/-- C1 amended: for a start path all of whose proper non-root ancestors are
present in the forest, the valid base case of every proper non-root
ancestor is emitted strictly before the start suite's own base case; the
root (empty path) is excluded — its base case is never emitted from a
non-root start, because the parent expansion is guarded by a non-empty
parent path. -/
theorem C1_ancestors_before_start (s : Suites) (p : RelPath) (m : Int)
    (hp : p ≠ [])
    (hchain : ∀ k, 1 ≤ k → k ≤ p.length → ∃ u, lookupSuite s (p.take k) = some u)
    (u : Suite) (b : Test) (hu : lookupSuite s p = some u) (hb : u.Base = some b)
    (hv : b.IsValid = true) :
    ∃ pre post, run s p m = pre ++ b :: post ∧
      ∀ k, 1 ≤ k → k < p.length → ∀ uq bq, lookupSuite s (p.take k) = some uq →
        uq.Base = some bq → bq.IsValid = true → bq ∈ pre := by
  unfold run
  rw [runWithVisited_eq, runBody_some s _ p m [] u (List.not_mem_nil p) hu]
  refine ⟨(if getParentPath p ≠ [] then runWithVisited s (getParentPath p) (-1) []
      else ([], [])).1,
    List.insertionSort childLE (collectChildTests s u m), ?_, ?_⟩
  · rw [hb]
    show _ ++ (if b.IsValid then [b] else []) ++ _ = _
    rw [if_pos hv, List.append_assoc]
    rfl
  · intro k hk1 hk2 uq bq hlq hbq hbv
    have hlen2 : 2 ≤ p.length := by omega
    have hgp : getParentPath p = p.dropLast := getParentPath_eq_dropLast p hlen2
    have hdlen : p.dropLast.length = p.length - 1 := List.length_dropLast p
    have hdne : p.dropLast ≠ [] := by
      intro hh
      rw [hh] at hdlen
      simp at hdlen
      omega
    have hguard : getParentPath p ≠ [] := by
      rw [hgp]
      exact hdne
    rw [if_pos hguard, hgp]
    have htake : ∀ k', k' ≤ p.length - 1 → p.dropLast.take k' = p.take k' := by
      intro k' hk'
      rw [List.dropLast_eq_take, List.take_take]
      congr 1
      omega
    refine run_ancestor_mem s p.dropLast.length p.dropLast (-1) rfl hdne ?_ k uq bq hk1
      (by omega) ?_ hbq hbv
    · intro k' h1 h2
      rw [htake k' (by omega)]
      exact hchain k' h1 (by omega)
    · rw [htake k (by omega)]
      exact hlq

/-- Witness for the amended C1: starting at `001_A/002_B` in `exForest`,
the ancestor `001_A` (present with a valid base) is emitted before the
start suite's own base case. -/
theorem C1_witness :
    (["001_A", "002_B"] : RelPath) ≠ [] ∧
    ∃ pre post, run exForest ["001_A", "002_B"] (-1) = pre ++ exBaseB :: post ∧
      ∀ k, 1 ≤ k → k < (["001_A", "002_B"] : RelPath).length →
        ∀ uq bq, lookupSuite exForest ((["001_A", "002_B"] : RelPath).take k) = some uq →
          uq.Base = some bq → bq.IsValid = true → bq ∈ pre :=
  ⟨by decide,
   C1_ancestors_before_start exForest ["001_A", "002_B"] (-1) (by decide)
     (by
       intro k h1 h2
       have h2' : k ≤ 2 := h2
       interval_cases k
       · exact ⟨exNodeA, by decide⟩
       · exact ⟨exNodeB, by decide⟩)
     exNodeB exBaseB (by decide) (by decide) (by decide)⟩

/-! ## C2: at-most-once emission -/

/-- Counterexample for C2: starting from the depth-2 sequenced suite
`001_A/002_B`, its base case is emitted twice in one invocation — once
while expanding the parent `001_A` (as its child) and once as the start
suite's own base case; the visited memoization does not prevent this. -/
theorem C2_counterexample :
    GetOrderedTests exForest ["001_A", "002_B"] = [exBaseA, exBaseB, exBaseB] ∧
    (GetOrderedTests exForest ["001_A", "002_B"]).countP
      (fun t => decide (t.Dir = (["001_A", "002_B"] : RelPath))) = 2 := by
  refine ⟨by decide, by decide⟩

theorem map_filterMap_sublist {α β γ : Type} (f : α → Option β) (g : β → γ) (h : α → γ) :
    ∀ l : List α, (∀ a ∈ l, ∀ b, f a = some b → g b = h a) →
      List.Sublist ((l.filterMap f).map g) (l.map h)
  | [], _ => by simp
  | a :: t, hfg => by
    simp only [List.filterMap_cons, List.map_cons]
    cases hfa : f a with
    | none =>
      exact List.Sublist.cons _
        (map_filterMap_sublist f g h t (fun x hx => hfg x (List.mem_cons_of_mem _ hx)))
    | some b =>
      simp only [List.map_cons]
      rw [hfg a (List.mem_cons_self _ _) b hfa]
      exact List.Sublist.cons₂ _
        (map_filterMap_sublist f g h t (fun x hx => hfg x (List.mem_cons_of_mem _ hx)))

theorem collectFn_spec (s : Suites) (m : Int) (kv : String × RelPath) (t : Test)
    (h : (match lookupSuite s kv.2 with
          | none => none
          | some child =>
            match child.Base with
            | none => none
            | some b =>
              if b.IsValid = false then none
              else if 0 ≤ m ∧ 0 ≤ b.Seq ∧ m < b.Seq then none
              else some b) = some t) :
    ∃ child, lookupSuite s kv.2 = some child ∧ child.Base = some t := by
  split at h
  · exact absurd h (by simp)
  · rename_i child hchild
    split at h
    · exact absurd h (by simp)
    · rename_i b hb
      split at h
      · exact absurd h (by simp)
      · split at h
        · exact absurd h (by simp)
        · cases h
          exact ⟨child, hchild, hb⟩

/-- The directory labels of the collected children of a suite at `q` are a
sublist of `q` extended by the child names, under discovery invariants. -/
theorem collect_dirs_sublist (s : Suites) (u : Suite) (m : Int) (q : RelPath)
    (W1 : ∀ q' u' b', lookupSuite s q' = some u' → u'.Base = some b' → b'.Dir = q')
    (hTests : ∀ e ∈ u.Tests, e.2 = q ++ [e.1]) :
    List.Sublist ((collectChildTests s u m).map Test.Dir)
      (u.Tests.map (fun e => q ++ [e.1])) := by
  unfold collectChildTests
  refine map_filterMap_sublist _ Test.Dir _ u.Tests ?_
  intro e he t hft
  obtain ⟨child, hc, hb⟩ := collectFn_spec s m e t hft
  rw [W1 e.2 child t hc hb]
  exact hTests e he

/-- C2 amended: for a start path whose parent is the root — a start at
depth at most one, including the root itself — no test case is emitted
twice: the emitted relative paths are duplicate-free, and the start suite's
valid base case appears exactly once.  (For deeper sequenced start paths
the base case is emitted twice, per the counterexample.)  The discovery
invariants assumed are: a node's base case records the node's own path,
child-map entries point at the parent path extended by the child name, and
child names are unique per suite. -/
theorem C2_at_most_once_from_shallow_start (s : Suites) (p : RelPath) (m : Int) (u : Suite)
    (hpar : getParentPath p = []) (hu : lookupSuite s p = some u)
    (W1 : ∀ q' u' b', lookupSuite s q' = some u' → u'.Base = some b' → b'.Dir = q')
    (W3 : ∀ q' u' e, lookupSuite s q' = some u' → e ∈ u'.Tests → e.2 = q' ++ [e.1])
    (Wn : ∀ q' u', lookupSuite s q' = some u' → (u'.Tests.map Prod.fst).Nodup) :
    ((run s p m).map Test.Dir).Nodup ∧
    (∀ b, u.Base = some b → b.IsValid = true →
      (run s p m).countP (fun t => decide (t.Dir = p)) = 1) := by
  have hout : run s p m =
      (match u.Base with
       | some b => if b.IsValid then [b] else []
       | none => []) ++ List.insertionSort childLE (collectChildTests s u m) := by
    unfold run
    rw [runWithVisited_eq, runBody_some s _ p m [] u (List.not_mem_nil p) hu]
    rw [if_neg (by rw [hpar]; exact fun hh => hh rfl)]
    rfl
  have hdirsub := collect_dirs_sublist s u m p W1 (fun e he => W3 p u e hu he)
  have hnames : (u.Tests.map (fun e => p ++ [e.1])).Nodup := by
    have : u.Tests.map (fun e => p ++ [e.1]) =
        (u.Tests.map Prod.fst).map (fun n => p ++ [n]) := by
      rw [List.map_map]
      rfl
    rw [this]
    refine List.Nodup.map ?_ (Wn p u hu)
    intro x y hxy
    have := List.append_cancel_left hxy
    simpa using this
  have hchild_nodup : ((collectChildTests s u m).map Test.Dir).Nodup :=
    List.Nodup.sublist hdirsub hnames
  have hchild_ne : ∀ d ∈ (collectChildTests s u m).map Test.Dir, d ≠ p := by
    intro d hd
    have hd' := hdirsub.subset hd
    rw [List.mem_map] at hd'
    obtain ⟨e, _, he⟩ := hd'
    rw [← he]
    intro hh
    have := congrArg List.length hh
    simp at this
  have hsortmap : List.Perm ((List.insertionSort childLE (collectChildTests s u m)).map Test.Dir)
      ((collectChildTests s u m).map Test.Dir) :=
    (List.perm_insertionSort childLE (collectChildTests s u m)).map Test.Dir
  have hsorted_nodup : ((List.insertionSort childLE (collectChildTests s u m)).map
      Test.Dir).Nodup := hsortmap.nodup_iff.2 hchild_nodup
  have hsorted_ne : ∀ d ∈ (List.insertionSort childLE
      (collectChildTests s u m)).map Test.Dir, d ≠ p := by
    intro d hd
    exact hchild_ne d (hsortmap.subset hd)
  constructor
  · rw [hout]
    cases hb : u.Base with
    | none =>
      show (List.map Test.Dir (([] : List Test) ++
        List.insertionSort childLE (collectChildTests s u m))).Nodup
      simpa using hsorted_nodup
    | some b =>
      show (List.map Test.Dir ((if b.IsValid then [b] else []) ++
        List.insertionSort childLE (collectChildTests s u m))).Nodup
      by_cases hv : b.IsValid
      · rw [if_pos hv]
        rw [show ([b] ++ List.insertionSort childLE (collectChildTests s u m)) =
          b :: List.insertionSort childLE (collectChildTests s u m) from rfl]
        rw [List.map_cons, List.nodup_cons]
        refine ⟨?_, hsorted_nodup⟩
        intro hmem
        have hbp : b.Dir = p := W1 p u b hu hb
        exact hsorted_ne b.Dir hmem hbp
      · rw [if_neg hv]
        simpa using hsorted_nodup
  · intro b hb hv
    rw [hout, hb]
    show ((if b.IsValid then [b] else []) ++
      List.insertionSort childLE (collectChildTests s u m)).countP
        (fun t => decide (t.Dir = p)) = 1
    rw [if_pos hv]
    rw [List.countP_append]
    have hbp : b.Dir = p := W1 p u b hu hb
    have h1 : ([b] : List Test).countP (fun t => decide (t.Dir = p)) = 1 := by
      simp [List.countP_cons, hbp]
    have h2 : (List.insertionSort childLE (collectChildTests s u m)).countP
        (fun t => decide (t.Dir = p)) = 0 := by
      rw [List.countP_eq_zero]
      intro t ht
      have : t.Dir ∈ (List.insertionSort childLE (collectChildTests s u m)).map Test.Dir :=
        List.mem_map.2 ⟨t, ht, rfl⟩
      have := hsorted_ne t.Dir this
      simp [this]
    rw [h1, h2]

/-- Witness for the amended C2 on `exForest` starting at the depth-1 suite
`001_A`. -/
theorem C2_witness :
    ((run exForest ["001_A"] (-1)).map Test.Dir).Nodup ∧
    (∀ b, exNodeA.Base = some b → b.IsValid = true →
      (run exForest ["001_A"] (-1)).countP
        (fun t => decide (t.Dir = (["001_A"] : RelPath))) = 1) :=
  C2_at_most_once_from_shallow_start exForest ["001_A"] (-1) exNodeA (by decide) (by decide)
    (by
      intro q' u' b' hq hb
      have hmem := assocFind_mem _ _ _ hq
      fin_cases hmem <;> (cases hb; decide))
    (by
      intro q' u' e hq he
      have hmem := assocFind_mem _ _ _ hq
      fin_cases hmem <;> fin_cases he <;> decide)
    (by
      intro q' u' hq
      have hmem := assocFind_mem _ _ _ hq
      fin_cases hmem <;> decide)

/-! ## C4: determinism and map-iteration order -/

theorem collectOne_eq (s : Suites) (m : Int) (kv : String × RelPath) :
    collectOne s m kv = (lookupSuite s kv.2).bind (fun child => child.Base.bind (fun b =>
      if b.IsValid = false then none
      else if 0 ≤ m ∧ 0 ≤ b.Seq ∧ m < b.Seq then none
      else some b)) := by
  unfold collectOne
  cases lookupSuite s kv.2 with
  | none => rfl
  | some child =>
    obtain ⟨cp, cb, ct, cr⟩ := child
    cases cb with
    | none => rfl
    | some b => rfl

theorem collectOne_equiv (s s' : Suites) (he : ForestEquiv s s') (m : Int)
    (kv : String × RelPath) : collectOne s m kv = collectOne s' m kv := by
  rw [collectOne_eq, collectOne_eq]
  rcases he kv.2 with ⟨h1, h2⟩ | ⟨u0, v0, hu0, hv0, heq⟩
  · rw [h1, h2]
  · rw [hu0, hv0]
    simp only [Option.some_bind]
    rw [heq.2.1]

theorem collectOne_mono (s : Suites) (m : Int) (kv : String × RelPath) (t : Test)
    (h : collectOne s m kv = some t) : collectOne s (-1) kv = some t := by
  rw [collectOne_eq] at h ⊢
  cases hlk : lookupSuite s kv.2 with
  | none =>
    rw [hlk] at h
    exact absurd h (by simp)
  | some child =>
    rw [hlk] at h
    simp only [Option.some_bind] at h ⊢
    cases hb : child.Base with
    | none =>
      rw [hb] at h
      exact absurd h (by simp)
    | some b =>
      rw [hb] at h
      simp only [Option.some_bind] at h ⊢
      by_cases hval : b.IsValid = false
      · rw [if_pos hval] at h
        exact absurd h (by simp)
      · rw [if_neg hval] at h ⊢
        rw [if_neg (by omega : ¬(0 ≤ (-1 : Int) ∧ 0 ≤ b.Seq ∧ (-1 : Int) < b.Seq))]
        split at h
        · exact absurd h (by simp)
        · exact h

theorem filterMap_mono {α β : Type} (f g : α → Option β)
    (h : ∀ a b, f a = some b → g a = some b) :
    ∀ l : List α, List.Sublist (l.filterMap f) (l.filterMap g)
  | [] => by simp
  | a :: t => by
    simp only [List.filterMap_cons]
    cases hfa : f a with
    | none =>
      cases hga : g a with
      | none => exact filterMap_mono f g h t
      | some b => exact List.Sublist.cons _ (filterMap_mono f g h t)
    | some b =>
      rw [h a b hfa]
      exact List.Sublist.cons₂ _ (filterMap_mono f g h t)

theorem collect_sublist_all (s : Suites) (u : Suite) (m : Int) :
    List.Sublist (collectChildTests s u m) (collectChildTests s u (-1)) := by
  unfold collectChildTests
  exact filterMap_mono (collectOne s m) (collectOne s (-1))
    (fun kv t h => collectOne_mono s m kv t h) u.Tests

theorem filterMap_congr_mem {α β : Type} (f g : α → Option β) :
    ∀ l : List α, (∀ a ∈ l, f a = g a) → l.filterMap f = l.filterMap g
  | [], _ => rfl
  | a :: t, h => by
    have ht := filterMap_congr_mem f g t (fun x hx => h x (List.mem_cons_of_mem _ hx))
    simp only [List.filterMap_cons, h a (List.mem_cons_self _ _), ht]

theorem collect_perm (s s' : Suites) (he : ForestEquiv s s') (u v : Suite)
    (huv : List.Perm u.Tests v.Tests) (m : Int) :
    List.Perm (collectChildTests s u m) (collectChildTests s' v m) := by
  unfold collectChildTests
  have h1 : u.Tests.filterMap (collectOne s m) = u.Tests.filterMap (collectOne s' m) :=
    filterMap_congr_mem _ _ u.Tests (fun kv _ => collectOne_equiv s s' he m kv)
  rw [h1]
  exact huv.filterMap (collectOne s' m)

theorem pairwise_forall_ne {α : Type} {R : α → α → Prop}
    (hsym : ∀ a b, R a b → R b a) :
    ∀ {l : List α}, l.Pairwise R → ∀ a ∈ l, ∀ b ∈ l, a ≠ b → R a b := by
  intro l hp
  induction hp with
  | nil =>
    intro a ha
    exact absurd ha (by simp)
  | cons hhead _ ih =>
    intro a ha b hb hne
    rcases List.mem_cons.1 ha with rfl | ha'
    · rcases List.mem_cons.1 hb with rfl | hb'
      · exact absurd rfl hne
      · exact hhead b hb'
    · rcases List.mem_cons.1 hb with rfl | hb'
      · exact hsym _ _ (hhead a ha')
      · exact ih a ha' b hb' hne

theorem sortChildren_unique (s s' : Suites) (he : ForestEquiv s s') (ht : NoTies s)
    (p : RelPath) (u v : Suite) (hu : lookupSuite s p = some u)
    (huv : List.Perm u.Tests v.Tests) (m : Int) :
    List.insertionSort childLE (collectChildTests s u m) =
      List.insertionSort childLE (collectChildTests s' v m) := by
  have hperm : List.Perm (List.insertionSort childLE (collectChildTests s u m))
      (List.insertionSort childLE (collectChildTests s' v m)) :=
    ((List.perm_insertionSort childLE _).trans (collect_perm s s' he u v huv m)).trans
      (List.perm_insertionSort childLE _).symm
  have hsym : ∀ a b : Test,
      (a ≠ b → childLess a b = true ∨ childLess b a = true) →
      (b ≠ a → childLess b a = true ∨ childLess a b = true) :=
    fun a b f hne => Or.symm (f hne.symm)
  refine sorted_perm_unique _ _ hperm (List.sorted_insertionSort childLE _)
    (List.sorted_insertionSort childLE _) ?_
  intro a b ha hb hab hba
  by_cases hne : a = b
  · exact hne
  · have hmem : ∀ x ∈ List.insertionSort childLE (collectChildTests s u m),
        x ∈ collectChildTests s u (-1) := by
      intro x hx
      exact (collect_sublist_all s u m).subset
        ((List.perm_insertionSort childLE _).subset hx)
    have hR := pairwise_forall_ne hsym (ht p u hu) a (hmem a ha) b (hmem b hb)
    have hab' : childLess b a = false := hab
    have hba' : childLess a b = false := hba
    rcases hR hne hne with hl | hl
    · rw [hba'] at hl
      exact absurd hl (by simp)
    · rw [hab'] at hl
      exact absurd hl (by simp)

theorem runWithVisited_equiv (s s' : Suites) (he : ForestEquiv s s') (ht : NoTies s) :
    ∀ n (p : RelPath) (m : Int) (v : List RelPath), p.length = n →
      runWithVisited s p m v = runWithVisited s' p m v := by
  intro n
  induction n using Nat.strong_induction_on with
  | _ n ih =>
    intro p m v hlen
    by_cases hv : p ∈ v
    · rw [runWithVisited_eq, runWithVisited_eq]
      unfold runBody
      rw [if_pos hv, if_pos hv]
    · rcases he p with ⟨h1, h2⟩ | ⟨u, w, hu, hw, heq⟩
      · rw [runWithVisited_eq, runWithVisited_eq]
        unfold runBody
        rw [if_neg hv, if_neg hv, h1, h2]
      · rw [runWithVisited_eq, runWithVisited_eq,
          runBody_some s _ p m v u hv hu, runBody_some s' _ p m v w hv hw]
        have hpr : (if getParentPath p ≠ [] then runWithVisited s (getParentPath p) (-1) v
              else ([], v)) =
            (if getParentPath p ≠ [] then runWithVisited s' (getParentPath p) (-1) v
              else ([], v)) := by
          by_cases hgp : getParentPath p ≠ []
          · rw [if_pos hgp, if_pos hgp]
            have hlt := getParentPath_length_lt p hgp
            exact ih (getParentPath p).length (by omega) _ (-1) v rfl
          · rw [if_neg hgp, if_neg hgp]
        rw [hpr, heq.2.1, sortChildren_unique s s' he ht p u w hu heq.2.2.2 m]

/-- Counterexample for C4: two enumeration orders of the same child map in
which two siblings share sequence token 1 give two different orderings —
the ordering of equal-token siblings depends on the map-iteration order,
which Go randomizes. -/
theorem C4_counterexample :
    List.Perm c4tieRootF.Tests c4tieRootR.Tests ∧
    c4tieRootF.Path = c4tieRootR.Path ∧ c4tieRootF.Base = c4tieRootR.Base ∧
    c4tieRootF.refs = c4tieRootR.refs ∧
    GetOrderedTests c4tieForestF [] = [c4tieA, c4tieB] ∧
    GetOrderedTests c4tieForestR [] = [c4tieB, c4tieA] ∧
    GetOrderedTests c4tieForestF [] ≠ GetOrderedTests c4tieForestR [] := by
  refine ⟨by decide, by decide, by decide, by decide, by decide, by decide, by decide⟩

/-- C4 amended: the computation is a pure function of the forest
representation, and it is independent of the child-map iteration order
provided no two distinct collected siblings tie under the comparator — in
particular when sequenced siblings have pairwise distinct tokens.  With an
equal token on two siblings, their relative order follows the iteration
order and is therefore unspecified. -/
theorem C4_deterministic_without_ties (s s' : Suites) (he : ForestEquiv s s')
    (ht : NoTies s) (p : RelPath) (m : Int) : run s p m = run s' p m := by
  unfold run
  rw [runWithVisited_equiv s s' he ht p.length p m [] rfl]

/-- Witness for the amended C4: with distinct tokens the two enumeration
orders give identical outputs. -/
theorem C4_witness : run c4wForestF [] (-1) = run c4wForestR [] (-1) :=
  C4_deterministic_without_ties c4wForestF c4wForestR
    (by
      intro p
      simp only [c4wForestF, c4wForestR, lookupSuite, assocFind]
      split_ifs with h1 h2 h3
      · exact Or.inr ⟨c4wRootF, c4wRootR, rfl, rfl, rfl, rfl, rfl, by decide⟩
      · exact Or.inr ⟨c4wChildA, c4wChildA, rfl, rfl, rfl, rfl, rfl, List.Perm.refl _⟩
      · exact Or.inr ⟨c4wChildB, c4wChildB, rfl, rfl, rfl, rfl, rfl, List.Perm.refl _⟩
      · exact Or.inl ⟨rfl, rfl⟩)
    (by
      intro p u hu
      have hmem := assocFind_mem _ _ _ hu
      fin_cases hmem <;> decide)
    [] (-1)

end TestRunner
